import Mathlib

/-!
Shallow embedding of the Hive-partitioned time-series storage engine
(`src/ml4t/data/storage/hive.py`, class `HiveStorage`), together with
proofs about its partition pruning, write/read round-trip, incremental
update (deduplication) path, atomic file writes, key encoding, error
handling, and metadata bookkeeping.

Conventions of the embedding:
- Python `datetime` instants are the `Timestamp` structure below; the
  chronological order is lexicographic on the calendar fields.
- DataFrames are lists of `Row` values: a timestamp plus the remaining
  columns as name/value pairs (column payloads are opaque to the engine,
  modelled as integers).
- The filesystem state a method touches is passed explicitly (a key's
  partition layout, a directory, the metadata store).
- Fallible operations return `Except`; fault injection parameters stand
  for exceptions raised by the I/O layer.
-/

namespace Ml4tData

/-- An instant as Python's `datetime` exposes it to the storage engine:
year/month/day/hour fields (used for partitioning) plus a minute field
standing for all finer, non-partitioned resolution. Chronological order
is lexicographic on the fields. -/
structure Timestamp where
  year : Nat
  month : Nat
  day : Nat
  hour : Nat
  minute : Nat
deriving DecidableEq, Repr

/-- Chronological `<=` on instants (lexicographic on the fields). -/
def Timestamp.le (a b : Timestamp) : Prop :=
  a.year < b.year ∨ (a.year = b.year ∧ (a.month < b.month ∨ (a.month = b.month ∧
    (a.day < b.day ∨ (a.day = b.day ∧ (a.hour < b.hour ∨ (a.hour = b.hour ∧
      a.minute ≤ b.minute)))))))

/-- Chronological `<` on instants (lexicographic on the fields). -/
def Timestamp.lt (a b : Timestamp) : Prop :=
  a.year < b.year ∨ (a.year = b.year ∧ (a.month < b.month ∨ (a.month = b.month ∧
    (a.day < b.day ∨ (a.day = b.day ∧ (a.hour < b.hour ∨ (a.hour = b.hour ∧
      a.minute < b.minute)))))))

instance (a b : Timestamp) : Decidable (Timestamp.le a b) := by
  unfold Timestamp.le; exact inferInstance

instance (a b : Timestamp) : Decidable (Timestamp.lt a b) := by
  unfold Timestamp.lt; exact inferInstance

/-- A dataframe row: its `timestamp` column plus the remaining columns as
name/value pairs. -/
structure Row where
  ts : Timestamp
  cols : List (String × Int)
deriving DecidableEq, Repr

/-- Mirrors `HiveStorage._get_partition_columns`: the partition column
names for the configured granularity; unknown granularity values fall
back to year/month (the dictionary `.get` default). -/
def get_partition_columns (granularity : String) : List String :=
  if granularity = "year" then ["year"]
  else if granularity = "month" then ["year", "month"]
  else if granularity = "day" then ["year", "month", "day"]
  else if granularity = "hour" then ["year", "month", "day", "hour"]
  else ["year", "month"]

/-- The dictionary `HiveStorage._extract_partition_values` parses out of a
partition path: each partition column present in the path maps to its
integer directory value. -/
structure PartitionValues where
  year : Option Nat
  month : Option Nat
  day : Option Nat
  hour : Option Nat
deriving DecidableEq, Repr

/-- Year-level pruning on the start bound (`year < start_date.year`). A
missing bound or missing partition value never prunes, like the Python
`if start_date and ...` / `if year is not None` guards. -/
def prune_year_start (pv : PartitionValues) (sd : Option Timestamp) : Bool :=
  match pv.year, sd with
  | some y, some s => decide (y < s.year)
  | _, _ => false

/-- Year-level pruning on the end bound (`year > end_date.year`). -/
def prune_year_end (pv : PartitionValues) (ed : Option Timestamp) : Bool :=
  match pv.year, ed with
  | some y, some e => decide (y > e.year)
  | _, _ => false

/-- Month-level pruning on the start bound: only when the year equals the
boundary year (`year == start_date.year and month < start_date.month`).
Python compares the possibly-absent `year` with `==`, so an absent year
makes the comparison false. -/
def prune_month_start (pv : PartitionValues) (sd : Option Timestamp) : Bool :=
  match pv.month, sd with
  | some m, some s => decide (pv.year = some s.year) && decide (m < s.month)
  | _, _ => false

/-- Month-level pruning on the end bound. -/
def prune_month_end (pv : PartitionValues) (ed : Option Timestamp) : Bool :=
  match pv.month, ed with
  | some m, some e => decide (pv.year = some e.year) && decide (m > e.month)
  | _, _ => false

/-- Day-level pruning on the start bound (year and month must both equal
the boundary). -/
def prune_day_start (pv : PartitionValues) (sd : Option Timestamp) : Bool :=
  match pv.day, sd with
  | some d, some s =>
      decide (pv.year = some s.year) && decide (pv.month = some s.month) && decide (d < s.day)
  | _, _ => false

/-- Day-level pruning on the end bound. -/
def prune_day_end (pv : PartitionValues) (ed : Option Timestamp) : Bool :=
  match pv.day, ed with
  | some d, some e =>
      decide (pv.year = some e.year) && decide (pv.month = some e.month) && decide (d > e.day)
  | _, _ => false

/-- Hour-level pruning on the start bound (year, month and day must all
equal the boundary). -/
def prune_hour_start (pv : PartitionValues) (sd : Option Timestamp) : Bool :=
  match pv.hour, sd with
  | some hr, some s =>
      decide (pv.year = some s.year) && decide (pv.month = some s.month) &&
        decide (pv.day = some s.day) && decide (hr < s.hour)
  | _, _ => false

/-- Hour-level pruning on the end bound. -/
def prune_hour_end (pv : PartitionValues) (ed : Option Timestamp) : Bool :=
  match pv.hour, ed with
  | some hr, some e =>
      decide (pv.year = some e.year) && decide (pv.month = some e.month) &&
        decide (pv.day = some e.day) && decide (hr > e.hour)
  | _, _ => false

/-- Mirrors `HiveStorage._partition_in_range`: the chain of early
`return False` checks, level by level. -/
def partition_in_range (pv : PartitionValues) (sd ed : Option Timestamp) : Bool :=
  if prune_year_start pv sd then false
  else if prune_year_end pv ed then false
  else if prune_month_start pv sd then false
  else if prune_month_end pv ed then false
  else if prune_day_start pv sd then false
  else if prune_day_end pv ed then false
  else if prune_hour_start pv sd then false
  else if prune_hour_end pv ed then false
  else true

/-- The partition values a row's timestamp lands in: the composite of
`HiveStorage._add_partition_columns` (which derives only the requested
year/month/day/hour columns from `timestamp`), `_build_partition_path`
on the group-by values, and `_extract_partition_values` on that path. -/
def row_partition_values (partition_cols : List String) (t : Timestamp) : PartitionValues where
  year := if "year" ∈ partition_cols then some t.year else none
  month := if "month" ∈ partition_cols then some t.month else none
  day := if "day" ∈ partition_cols then some t.day else none
  hour := if "hour" ∈ partition_cols then some t.hour else none

/-- The exact row-level filters `HiveStorage.read` applies to each lazy
scan: `timestamp >= start_date` and `timestamp < end_date`, each only
when the bound is given. -/
def row_in_bounds (sd ed : Option Timestamp) (r : Row) : Bool :=
  (match sd with
   | some s => decide (Timestamp.le s r.ts)
   | none => true) &&
  (match ed with
   | some e => decide (Timestamp.lt r.ts e)
   | none => true)

/-- One leaf partition: its path-encoded values and the rows of its
`data.parquet` file. -/
abbrev Partition := PartitionValues × List Row

/-- Mirrors the body of `HiveStorage.read` after key lookup, with the
lazy frames materialized: `_find_partition_paths` keeps the partitions
passing `_partition_in_range` (with no bounds every partition survives,
and indeed `partition_in_range` is vacuously true then), every surviving
scan gets the exact row-level timestamp filters, and the results are
concatenated. -/
def read_partitions (layout : List Partition) (sd ed : Option Timestamp) : List Row :=
  ((layout.filter fun p => partition_in_range p.1 sd ed).map
    fun p => p.2.filter (row_in_bounds sd ed)).flatten

/-- Polars `with_columns` on one column: replace an existing column of
that name in place, else append it. -/
def set_col (cols : List (String × Int)) (n : String) (v : Int) : List (String × Int) :=
  match cols with
  | [] => [(n, v)]
  | (m, w) :: rest => if m = n then (n, v) :: rest else (m, w) :: set_col rest n v

/-- Mirrors `HiveStorage._add_partition_columns`: derive the requested
partition columns from the row's `timestamp` (overwriting any
same-named payload column, as polars `with_columns` does). -/
def add_partition_columns (pcols : List String) (r : Row) : Row :=
  let c := r.cols
  let c := if "year" ∈ pcols then set_col c "year" (r.ts.year : Int) else c
  let c := if "month" ∈ pcols then set_col c "month" (r.ts.month : Int) else c
  let c := if "day" ∈ pcols then set_col c "day" (r.ts.day : Int) else c
  let c := if "hour" ∈ pcols then set_col c "hour" (r.ts.hour : Int) else c
  { r with cols := c }

/-- Mirrors `partition_df.drop(partition_cols)` in `HiveStorage.write`:
strip the partition-discriminating columns before persistence. -/
def drop_columns (pcols : List String) (r : Row) : Row :=
  { r with cols := r.cols.filter fun c => decide (c.1 ∉ pcols) }

/-- First-occurrence deduplication of group keys, tracking the keys seen
so far. -/
def dedup_first_aux (seen : List PartitionValues) :
    List PartitionValues → List PartitionValues
  | [] => []
  | k :: rest =>
      if k ∈ seen then dedup_first_aux seen rest
      else k :: dedup_first_aux (k :: seen) rest

/-- First-occurrence deduplication of group keys: the key order of polars
`group_by(..., maintain_order=True)`. -/
def dedup_first (l : List PartitionValues) : List PartitionValues :=
  dedup_first_aux [] l

theorem mem_dedup_first_aux (seen l : List PartitionValues) (a : PartitionValues) :
    a ∈ dedup_first_aux seen l ↔ a ∈ l ∧ a ∉ seen := by
  induction l generalizing seen with
  | nil => simp [dedup_first_aux]
  | cons k rest ih =>
    by_cases hk : k ∈ seen
    · rw [dedup_first_aux, if_pos hk, ih]
      constructor
      · rintro ⟨h1, h2⟩; exact ⟨List.mem_cons_of_mem _ h1, h2⟩
      · rintro ⟨h1, h2⟩
        rcases List.mem_cons.mp h1 with rfl | h1
        · exact absurd hk h2
        · exact ⟨h1, h2⟩
    · rw [dedup_first_aux, if_neg hk]
      constructor
      · intro h
        rcases List.mem_cons.mp h with rfl | h
        · exact ⟨List.mem_cons_self _ _, hk⟩
        · obtain ⟨h1, h2⟩ := (ih _).mp h
          refine ⟨List.mem_cons_of_mem _ h1, fun hs => h2 (List.mem_cons_of_mem _ hs)⟩
      · rintro ⟨h1, h2⟩
        rcases List.mem_cons.mp h1 with rfl | h1
        · exact List.mem_cons_self _ _
        · by_cases hak : a = k
          · subst hak; exact List.mem_cons_self _ _
          · exact List.mem_cons_of_mem _ ((ih _).mpr
              ⟨h1, fun hs => h2 (by
                rcases List.mem_cons.mp hs with h | h
                · exact absurd h hak
                · exact h)⟩)

theorem nodup_dedup_first_aux (seen l : List PartitionValues) :
    (dedup_first_aux seen l).Nodup := by
  induction l generalizing seen with
  | nil => simp [dedup_first_aux]
  | cons k rest ih =>
    by_cases hk : k ∈ seen
    · rw [dedup_first_aux, if_pos hk]; exact ih seen
    · rw [dedup_first_aux, if_neg hk]
      refine List.Nodup.cons ?_ (ih (k :: seen))
      intro hmem
      exact ((mem_dedup_first_aux _ _ _).mp hmem).2 (List.mem_cons_self _ _)

theorem mem_dedup_first (l : List PartitionValues) (a : PartitionValues) :
    a ∈ dedup_first l ↔ a ∈ l := by
  rw [dedup_first, mem_dedup_first_aux]; simp

theorem nodup_dedup_first (l : List PartitionValues) : (dedup_first l).Nodup :=
  nodup_dedup_first_aux [] l

/-- Mirrors the partition-writing loop of `HiveStorage.write`: add
partition columns, group by them in first-occurrence order (polars
`group_by(partition_cols, maintain_order=True)`, whose key tuple for a
row equals the values derived from its timestamp), then for every group
drop the partition columns and write the group's rows to the partition
directory built from the group key. The resulting on-disk layout is the
list of partitions, each with its data-file rows. -/
def hive_write (pcols : List String) (df : List Row) : List Partition :=
  let df2 := df.map (add_partition_columns pcols)
  let keys := dedup_first (df2.map fun r => row_partition_values pcols r.ts)
  keys.map fun k =>
    (k, (df2.filter fun r => decide (row_partition_values pcols r.ts = k)).map
          (drop_columns pcols))

/-- Every row stored in a partition written by `hive_write` has partition
values equal to that partition's path-encoded values. -/
theorem hive_write_valid (pcols : List String) (df : List Row) :
    ∀ p ∈ hive_write pcols df, ∀ r ∈ p.2, row_partition_values pcols r.ts = p.1 := by
  intro p hp r hr
  simp only [hive_write, List.mem_map] at hp
  obtain ⟨k, _, rfl⟩ := hp
  simp only [List.mem_map, List.mem_filter, decide_eq_true_eq] at hr
  obtain ⟨r', ⟨_, hk⟩, rfl⟩ := hr
  simpa [drop_columns] using hk

/-- A missing start bound never triggers the start-side prunes. -/
theorem prune_start_none (pv : PartitionValues) :
    prune_year_start pv none = false ∧ prune_month_start pv none = false ∧
      prune_day_start pv none = false ∧ prune_hour_start pv none = false := by
  refine ⟨?_, ?_, ?_, ?_⟩ <;>
    first
    | (cases pv.year <;> simp [prune_year_start])
    | (cases pv.month <;> simp [prune_month_start])
    | (cases pv.day <;> simp [prune_day_start])
    | (cases pv.hour <;> simp [prune_hour_start])

/-- A missing end bound never triggers the end-side prunes. -/
theorem prune_end_none (pv : PartitionValues) :
    prune_year_end pv none = false ∧ prune_month_end pv none = false ∧
      prune_day_end pv none = false ∧ prune_hour_end pv none = false := by
  refine ⟨?_, ?_, ?_, ?_⟩ <;>
    first
    | (cases pv.year <;> simp [prune_year_end])
    | (cases pv.month <;> simp [prune_month_end])
    | (cases pv.day <;> simp [prune_day_end])
    | (cases pv.hour <;> simp [prune_hour_end])

/-- A partition derived from a timestamp at or after the start bound is
never pruned by the start-side checks. -/
theorem prune_start_conservative (oy om od oh : Option Nat) (t s : Timestamp)
    (hy : oy = some t.year ∨ oy = none) (hm : om = some t.month ∨ om = none)
    (hd : od = some t.day ∨ od = none) (hh : oh = some t.hour ∨ oh = none)
    (hle : Timestamp.le s t) :
    prune_year_start ⟨oy, om, od, oh⟩ (some s) = false ∧
      prune_month_start ⟨oy, om, od, oh⟩ (some s) = false ∧
      prune_day_start ⟨oy, om, od, oh⟩ (some s) = false ∧
      prune_hour_start ⟨oy, om, od, oh⟩ (some s) = false := by
  unfold Timestamp.le at hle
  refine ⟨?_, ?_, ?_, ?_⟩
  · rcases hy with rfl | rfl
    · simp only [prune_year_start, decide_eq_false_iff_not]; omega
    · rfl
  · rcases hm with rfl | rfl
    · rcases hy with rfl | rfl
      · simp only [prune_month_start, Option.some.injEq, Bool.and_eq_false_iff,
          decide_eq_false_iff_not]
        omega
      · simp [prune_month_start]
    · rcases hy with rfl | rfl <;> rfl
  · rcases hd with rfl | rfl
    · rcases hy with rfl | rfl <;> rcases hm with rfl | rfl <;>
        simp [prune_day_start, Bool.and_eq_false_iff, decide_eq_false_iff_not] <;> omega
    · rfl
  · rcases hh with rfl | rfl
    · rcases hy with rfl | rfl <;> rcases hm with rfl | rfl <;> rcases hd with rfl | rfl <;>
        simp [prune_hour_start, Bool.and_eq_false_iff, decide_eq_false_iff_not] <;> omega
    · rfl

/-- A partition derived from a timestamp strictly before the (exclusive)
end bound is never pruned by the end-side checks. -/
theorem prune_end_conservative (oy om od oh : Option Nat) (t e : Timestamp)
    (hy : oy = some t.year ∨ oy = none) (hm : om = some t.month ∨ om = none)
    (hd : od = some t.day ∨ od = none) (hh : oh = some t.hour ∨ oh = none)
    (hlt : Timestamp.lt t e) :
    prune_year_end ⟨oy, om, od, oh⟩ (some e) = false ∧
      prune_month_end ⟨oy, om, od, oh⟩ (some e) = false ∧
      prune_day_end ⟨oy, om, od, oh⟩ (some e) = false ∧
      prune_hour_end ⟨oy, om, od, oh⟩ (some e) = false := by
  unfold Timestamp.lt at hlt
  refine ⟨?_, ?_, ?_, ?_⟩
  · rcases hy with rfl | rfl
    · simp only [prune_year_end, decide_eq_false_iff_not]; omega
    · rfl
  · rcases hm with rfl | rfl
    · rcases hy with rfl | rfl
      · simp only [prune_month_end, Option.some.injEq, Bool.and_eq_false_iff,
          decide_eq_false_iff_not]
        omega
      · simp [prune_month_end]
    · rcases hy with rfl | rfl <;> rfl
  · rcases hd with rfl | rfl
    · rcases hy with rfl | rfl <;> rcases hm with rfl | rfl <;>
        simp [prune_day_end, Bool.and_eq_false_iff, decide_eq_false_iff_not] <;> omega
    · rfl
  · rcases hh with rfl | rfl
    · rcases hy with rfl | rfl <;> rcases hm with rfl | rfl <;> rcases hd with rfl | rfl <;>
        simp [prune_hour_end, Bool.and_eq_false_iff, decide_eq_false_iff_not] <;> omega
    · rfl

/-- Conservativeness of `_partition_in_range`: a partition holding a row
whose timestamp passes the row-level bound filters is never pruned. -/
theorem prune_conservative (pcols : List String) (r : Row) (sd ed : Option Timestamp)
    (h : row_in_bounds sd ed r = true) :
    partition_in_range (row_partition_values pcols r.ts) sd ed = true := by
  rcases hpv : row_partition_values pcols r.ts with ⟨oy, om, od, oh⟩
  have hy : oy = some r.ts.year ∨ oy = none := by
    have := congrArg PartitionValues.year hpv
    simp only [row_partition_values] at this
    split at this <;> simp_all
  have hm : om = some r.ts.month ∨ om = none := by
    have := congrArg PartitionValues.month hpv
    simp only [row_partition_values] at this
    split at this <;> simp_all
  have hd : od = some r.ts.day ∨ od = none := by
    have := congrArg PartitionValues.day hpv
    simp only [row_partition_values] at this
    split at this <;> simp_all
  have hh : oh = some r.ts.hour ∨ oh = none := by
    have := congrArg PartitionValues.hour hpv
    simp only [row_partition_values] at this
    split at this <;> simp_all
  have hstart : prune_year_start ⟨oy, om, od, oh⟩ sd = false ∧
      prune_month_start ⟨oy, om, od, oh⟩ sd = false ∧
      prune_day_start ⟨oy, om, od, oh⟩ sd = false ∧
      prune_hour_start ⟨oy, om, od, oh⟩ sd = false := by
    rcases sd with _ | s
    · exact prune_start_none _
    · have hs : Timestamp.le s r.ts := by
        simp only [row_in_bounds, Bool.and_eq_true, decide_eq_true_eq] at h
        exact h.1
      exact prune_start_conservative oy om od oh r.ts s hy hm hd hh hs
  have hend : prune_year_end ⟨oy, om, od, oh⟩ ed = false ∧
      prune_month_end ⟨oy, om, od, oh⟩ ed = false ∧
      prune_day_end ⟨oy, om, od, oh⟩ ed = false ∧
      prune_hour_end ⟨oy, om, od, oh⟩ ed = false := by
    rcases ed with _ | e
    · exact prune_end_none _
    · have he : Timestamp.lt r.ts e := by
        simp only [row_in_bounds, Bool.and_eq_true, decide_eq_true_eq] at h
        exact h.2
      exact prune_end_conservative oy om od oh r.ts e hy hm hd hh he
  obtain ⟨h1, h3, h5, h7⟩ := hstart
  obtain ⟨h2, h4, h6, h8⟩ := hend
  simp [partition_in_range, h1, h2, h3, h4, h5, h6, h7, h8]

/-- Read over a layout whose partitions all satisfy the path/content
agreement equals the exact row-level filter over the whole stored
dataset: pruning drops only partitions with no surviving rows. -/
theorem read_eq_filter (pcols : List String) (L : List Partition)
    (hL : ∀ p ∈ L, ∀ r ∈ p.2, row_partition_values pcols r.ts = p.1)
    (sd ed : Option Timestamp) :
    read_partitions L sd ed = ((L.map Prod.snd).flatten).filter (row_in_bounds sd ed) := by
  induction L with
  | nil => rfl
  | cons p rest ih =>
    have hrest : ∀ q ∈ rest, ∀ r ∈ q.2, row_partition_values pcols r.ts = q.1 := by
      intro q hq; exact hL q (List.mem_cons_of_mem _ hq)
    by_cases hpr : partition_in_range p.1 sd ed = true
    · simp only [read_partitions, List.map_cons, List.flatten_cons, List.filter_append,
        List.filter_cons, hpr, if_pos]
      simp only [read_partitions] at ih
      rw [ih hrest]
    · have hemp : p.2.filter (row_in_bounds sd ed) = [] := by
        rw [List.filter_eq_nil_iff]
        intro r hr hb
        have := prune_conservative pcols r sd ed hb
        rw [hL p (List.mem_cons_self p rest) r hr] at this
        exact hpr this
      simp only [read_partitions, List.map_cons, List.flatten_cons, List.filter_append,
        List.filter_cons, hpr, if_neg, Bool.false_eq_true, not_false_iff, hemp,
        List.nil_append]
      simp only [read_partitions] at ih
      rw [ih hrest]

/-- C1: for every dataset stored under a key by `write` and every pair of
bounds with start <= end, `read(key, start, end)` materialized returns
exactly the rows of the stored dataset whose timestamp t satisfies
start <= t < end: year/month/day/hour partition pruning never drops a
partition that might contain an in-range row (boundary partitions
included), and the per-row timestamp filter removes every out-of-range
row. -/
theorem partition_pruning_exact (granularity : String) (df : List Row) (s e : Timestamp)
    (hse : Timestamp.le s e) :
    read_partitions (hive_write (get_partition_columns granularity) df) (some s) (some e) =
      (((hive_write (get_partition_columns granularity) df).map Prod.snd).flatten).filter
        (row_in_bounds (some s) (some e)) :=
  read_eq_filter (get_partition_columns granularity) _ (hive_write_valid _ df) _ _

/-- Witness for C1 at a concrete day-partitioned dataset and bounds lying
exactly on a partition boundary. -/
theorem partition_pruning_exact_witness :
    Timestamp.le ⟨2024, 1, 2, 0, 0⟩ ⟨2024, 1, 3, 0, 0⟩ ∧
      read_partitions
          (hive_write (get_partition_columns "day")
            [⟨⟨2024, 1, 1, 10, 30⟩, [("open", 5)]⟩, ⟨⟨2024, 1, 2, 9, 0⟩, [("open", 6)]⟩,
              ⟨⟨2024, 1, 3, 0, 0⟩, [("open", 7)]⟩])
          (some ⟨2024, 1, 2, 0, 0⟩) (some ⟨2024, 1, 3, 0, 0⟩) =
        (((hive_write (get_partition_columns "day")
            [⟨⟨2024, 1, 1, 10, 30⟩, [("open", 5)]⟩, ⟨⟨2024, 1, 2, 9, 0⟩, [("open", 6)]⟩,
              ⟨⟨2024, 1, 3, 0, 0⟩, [("open", 7)]⟩]).map Prod.snd).flatten).filter
          (row_in_bounds (some ⟨2024, 1, 2, 0, 0⟩) (some ⟨2024, 1, 3, 0, 0⟩)) :=
  ⟨by decide, partition_pruning_exact "day" _ _ _ (by decide)⟩

/-- Grouping a list by key and concatenating the groups back is a
permutation of the list (the content of polars
`group_by(..., maintain_order=True)` followed by concatenation). -/
theorem flatMap_filter_key_perm (keyFn : Row → PartitionValues) (ks : List PartitionValues)
    (l : List Row) (hnd : ks.Nodup) (hcov : ∀ r ∈ l, keyFn r ∈ ks) :
    (ks.flatMap fun k => l.filter fun r => decide (keyFn r = k)).Perm l := by
  induction ks generalizing l with
  | nil =>
    have : l = [] := List.eq_nil_iff_forall_not_mem.mpr fun r hr => by
      simpa using hcov r hr
    simp [this]
  | cons k ks ih =>
    rw [List.flatMap_cons]
    have hks : ∀ k2 ∈ ks, l.filter (fun r => decide (keyFn r = k2)) =
        (l.filter fun r => !(decide (keyFn r = k))).filter fun r => decide (keyFn r = k2) := by
      intro k2 hk2
      rw [List.filter_filter]
      refine List.filter_congr fun r _ => ?_
      have hkk2 : ¬ k2 = k := by
        rintro rfl
        exact (List.nodup_cons.mp hnd).1 hk2
      by_cases h : keyFn r = k2
      · simp [h, hkk2]
      · simp [h]
    have hrw : (ks.flatMap fun k2 => l.filter fun r => decide (keyFn r = k2)) =
        ks.flatMap fun k2 =>
          (l.filter fun r => !(decide (keyFn r = k))).filter fun r => decide (keyFn r = k2) := by
      apply List.flatMap_congr  -- pointwise on members
      intro k2 hk2
      exact hks k2 hk2
    rw [hrw]
    have hcov2 : ∀ r ∈ l.filter fun r => !(decide (keyFn r = k)), keyFn r ∈ ks := by
      intro r hr
      obtain ⟨hrl, hne⟩ := List.mem_filter.mp hr
      have := hcov r hrl
      rcases List.mem_cons.mp this with h | h
      · simp [h] at hne
      · exact h
    have hperm := ih (List.nodup_cons.mp hnd).2
      (l := l.filter fun r => !(decide (keyFn r = k))) hcov2
    exact List.Perm.trans (List.Perm.append_left _ hperm) (List.filter_append_perm _ l)

/-- The rows `hive_write` lays down, across all partitions, are exactly
the input rows transformed by add-partition-columns-then-drop, up to
order. -/
theorem hive_write_rows_perm (pcols : List String) (df : List Row) :
    (((hive_write pcols df).map Prod.snd).flatten).Perm
      (df.map fun r => drop_columns pcols (add_partition_columns pcols r)) := by
  have hgoal : ((hive_write pcols df).map Prod.snd).flatten =
      ((dedup_first ((df.map (add_partition_columns pcols)).map
          fun r => row_partition_values pcols r.ts)).flatMap
        fun k => (df.map (add_partition_columns pcols)).filter
          fun r => decide (row_partition_values pcols r.ts = k)).map (drop_columns pcols) := by
    unfold hive_write
    rw [List.map_map, List.map_flatMap]
    rfl
  rw [hgoal]
  have hmapped : df.map (fun r => drop_columns pcols (add_partition_columns pcols r)) =
      (df.map (add_partition_columns pcols)).map (drop_columns pcols) := by
    rw [List.map_map]; rfl
  rw [hmapped]
  apply List.Perm.map
  apply flatMap_filter_key_perm
  · exact nodup_dedup_first _
  · intro r hr
    rw [mem_dedup_first]
    exact List.mem_map_of_mem _ hr

/-- Dropping the partition-named columns undoes a `set_col` of a
partition column. -/
theorem filter_drop_set_col (pcols : List String) (cs : List (String × Int)) (n : String)
    (v : Int) (hn : n ∈ pcols) :
    (set_col cs n v).filter (fun c => decide (c.1 ∉ pcols)) =
      cs.filter (fun c => decide (c.1 ∉ pcols)) := by
  induction cs with
  | nil => simp [set_col, hn]
  | cons c rest ih =>
    obtain ⟨m, w⟩ := c
    by_cases hm : m = n
    · subst hm
      rw [set_col, if_pos rfl]
      simp [hn]
    · rw [set_col, if_neg hm]
      by_cases hmp : m ∈ pcols
      · simp only [List.filter_cons, decide_eq_true_eq]
        rw [if_neg (by simp [hmp]), if_neg (by simp [hmp])]
        exact ih
      · simp only [List.filter_cons, decide_eq_true_eq]
        rw [if_pos (by simp [hmp]), if_pos (by simp [hmp])]
        rw [ih]

/-- Writing a row whose payload columns avoid the partition column names
and reading it back (partition columns derived then stripped) is the
identity on the row. -/
theorem drop_add_clean (pcols : List String) (r : Row)
    (hclean : ∀ c ∈ r.cols, c.1 ∉ pcols) :
    drop_columns pcols (add_partition_columns pcols r) = r := by
  have step : ∀ (cs : List (String × Int)) (n : String) (v : Int), n ∈ pcols →
      ((if n ∈ pcols then set_col cs n v else cs).filter fun c => decide (c.1 ∉ pcols)) =
        cs.filter fun c => decide (c.1 ∉ pcols) := by
    intro cs n v hn
    rw [if_pos hn]
    exact filter_drop_set_col pcols cs n v hn
  have stepAny : ∀ (cs : List (String × Int)) (n : String) (v : Int),
      ((if n ∈ pcols then set_col cs n v else cs).filter fun c => decide (c.1 ∉ pcols)) =
        cs.filter fun c => decide (c.1 ∉ pcols) := by
    intro cs n v
    by_cases hn : n ∈ pcols
    · exact step cs n v hn
    · rw [if_neg hn]
  have hcols : (add_partition_columns pcols r).cols.filter (fun c => decide (c.1 ∉ pcols)) =
      r.cols.filter fun c => decide (c.1 ∉ pcols) := by
    unfold add_partition_columns
    simp only
    rw [stepAny, stepAny, stepAny, stepAny]
  have hts : (add_partition_columns pcols r).ts = r.ts := rfl
  unfold drop_columns
  rw [hcols, hts]
  have : r.cols.filter (fun c => decide (c.1 ∉ pcols)) = r.cols :=
    List.filter_eq_self.mpr fun c hc => by simpa using hclean c hc
  rw [this]

/-- Boolean order on column name/value pairs, used only to compare rows
up to column order. -/
def pair_le (a b : String × Int) : Bool :=
  decide (a.1 < b.1) || (decide (a.1 = b.1) && decide (a.2 ≤ b.2))

/-- Insertion into a column list sorted by `pair_le`. -/
def insert_pair (a : String × Int) : List (String × Int) → List (String × Int)
  | [] => [a]
  | b :: rest => if pair_le a b then a :: b :: rest else b :: insert_pair a rest

/-- Normalize a row by sorting its columns, so that rows equal up to
column order become equal. -/
def norm_row (r : Row) : Row :=
  { r with cols := r.cols.foldr insert_pair [] }

/-- Equality of dataframes up to row order and per-row column order. -/
def table_equiv (df1 df2 : List Row) : Prop :=
  (df1.map norm_row).Perm (df2.map norm_row)

instance (df1 df2 : List Row) : Decidable (table_equiv df1 df2) := by
  unfold table_equiv; exact inferInstance

/-- A read with no bounds keeps every stored row. -/
theorem read_partitions_none (pcols : List String) (L : List Partition)
    (hL : ∀ p ∈ L, ∀ r ∈ p.2, row_partition_values pcols r.ts = p.1) :
    read_partitions L none none = (L.map Prod.snd).flatten := by
  rw [read_eq_filter pcols L hL none none]
  exact List.filter_eq_self.mpr fun r _ => rfl

/-- C2 (amended): for every table whose payload columns avoid the active
partition column names, write followed by a full read returns the table
up to row order and column order. -/
theorem write_read_round_trip (granularity : String) (df : List Row)
    (hclean : ∀ r ∈ df, ∀ c ∈ r.cols, c.1 ∉ get_partition_columns granularity) :
    table_equiv
      (read_partitions (hive_write (get_partition_columns granularity) df) none none) df := by
  rw [read_partitions_none (get_partition_columns granularity) _
    (hive_write_valid _ df)]
  unfold table_equiv
  apply List.Perm.map
  have h1 := hive_write_rows_perm (get_partition_columns granularity) df
  have h2 : df.map (fun r => drop_columns (get_partition_columns granularity)
      (add_partition_columns (get_partition_columns granularity) r)) = df := by
    rw [List.map_congr_left fun r hr => drop_add_clean _ r (hclean r hr)]
    exact List.map_id df
  rw [h2] at h1
  exact h1

/-- Witness for C2 at a concrete clean two-row table spanning two
partitions. -/
theorem write_read_round_trip_witness :
    (∀ r ∈ [Row.mk ⟨2024, 2, 1, 0, 0⟩ [("open", 3), ("close", 4)],
        Row.mk ⟨2024, 1, 5, 0, 0⟩ [("open", 1)]],
      ∀ c ∈ r.cols, c.1 ∉ get_partition_columns "month") ∧
    table_equiv
      (read_partitions (hive_write (get_partition_columns "month")
        [Row.mk ⟨2024, 2, 1, 0, 0⟩ [("open", 3), ("close", 4)],
          Row.mk ⟨2024, 1, 5, 0, 0⟩ [("open", 1)]]) none none)
      [Row.mk ⟨2024, 2, 1, 0, 0⟩ [("open", 3), ("close", 4)],
        Row.mk ⟨2024, 1, 5, 0, 0⟩ [("open", 1)]] :=
  ⟨by decide, write_read_round_trip "month" _ (by decide)⟩

/-- Counterexample to C2 as stated: a table with a payload column named
`year` is not returned intact — `write` overwrites it with the derived
partition value and strips it, so the read-back table is not equal to
the input even up to row and column order. -/
theorem write_read_round_trip_counterexample :
    ¬ table_equiv
        (read_partitions (hive_write (get_partition_columns "month")
          [Row.mk ⟨2024, 1, 1, 0, 0⟩ [("year", 99)]]) none none)
        [Row.mk ⟨2024, 1, 1, 0, 0⟩ [("year", 99)]] := by decide

/-- Polars `unique(subset=["timestamp"], keep="last")`: keep, for every
timestamp value, the last row bearing it. -/
def unique_keep_last (rows : List Row) : List Row :=
  rows.foldr (fun r acc => if acc.any fun s => s.ts == r.ts then acc else r :: acc) []

/-- Stable insertion into a timestamp-ascending list. -/
def insert_by_ts (r : Row) : List Row → List Row
  | [] => [r]
  | s :: rest => if Timestamp.le r.ts s.ts then r :: s :: rest else s :: insert_by_ts r rest

/-- Polars `sort("timestamp")`: stable ascending sort by timestamp. -/
def sort_by_timestamp (rows : List Row) : List Row := rows.foldr insert_by_ts []

/-- Mirrors `HiveStorage.update_combined_file`, with the key's stored
queryable dataset abstracted to its row list (`none` when the key does
not exist, mirroring the `self.exists(key)` guard; reading the stored
rows back and re-persisting via `write` are the identities established
by the round-trip theorems). Returns the re-persisted combined dataset
together with the integer the method returns: note the code computes
`rows_before` from the already-concatenated frame. -/
def update_combined_file (existing : Option (List Row)) (data : List Row) :
    List Row × Int :=
  let combined := match existing with
    | some existing_df => existing_df ++ data
    | none => data
  let rows_before : Int := combined.length
  let combined2 := sort_by_timestamp (unique_keep_last combined)
  let rows_after : Int := combined2.length
  (combined2, rows_after - rows_before)

/-- The last row of a list carrying a given timestamp, if any. -/
def find_last_ts (t : Timestamp) (rows : List Row) : Option Row :=
  rows.foldl (fun acc r => if r.ts == t then some r else acc) none

theorem find_last_carry (t : Timestamp) (l : List Row) (a : Option Row) :
    l.foldl (fun acc r => if r.ts == t then some r else acc) a =
      match find_last_ts t l with
      | some r => some r
      | none => a := by
  induction l generalizing a with
  | nil => simp [find_last_ts]
  | cons b l ih =>
    have hcons : find_last_ts t (b :: l) =
        l.foldl (fun acc r => if r.ts == t then some r else acc)
          (if b.ts == t then some b else none) := rfl
    rw [List.foldl_cons, hcons]
    by_cases hb : (b.ts == t) = true
    · rw [if_pos hb, if_pos hb, ih (some b)]
      cases find_last_ts t l <;> rfl
    · rw [if_neg hb, if_neg hb, ih a]
      rfl

theorem find_last_append (t : Timestamp) (l1 l2 : List Row) :
    find_last_ts t (l1 ++ l2) =
      match find_last_ts t l2 with
      | some r => some r
      | none => find_last_ts t l1 := by
  rw [find_last_ts, List.foldl_append]
  exact find_last_carry t l2 _

theorem find_last_mem_aux (t : Timestamp) (l : List Row) :
    ∀ (a : Option Row) (r : Row),
      l.foldl (fun acc s => if s.ts == t then some s else acc) a = some r →
        a = some r ∨ (r ∈ l ∧ r.ts = t) := by
  induction l with
  | nil => intro a r h; exact Or.inl h
  | cons b l ih =>
    intro a r h
    rw [List.foldl_cons] at h
    rcases ih _ r h with h2 | h2
    · by_cases hb : (b.ts == t) = true
      · rw [if_pos hb] at h2
        injection h2 with h3
        subst h3
        exact Or.inr ⟨List.mem_cons_self _ _, by simpa using hb⟩
      · rw [if_neg hb] at h2
        exact Or.inl h2
    · exact Or.inr ⟨List.mem_cons_of_mem _ h2.1, h2.2⟩

theorem find_last_mem (t : Timestamp) (l : List Row) (r : Row)
    (h : find_last_ts t l = some r) : r ∈ l ∧ r.ts = t := by
  rcases find_last_mem_aux t l none r h with h2 | h2
  · exact absurd h2 (by simp)
  · exact h2

theorem find_last_eq_none_iff (t : Timestamp) (l : List Row) :
    find_last_ts t l = none ↔ ∀ s ∈ l, s.ts ≠ t := by
  induction l with
  | nil => simp [find_last_ts]
  | cons b l ih =>
    rw [find_last_ts, List.foldl_cons, find_last_carry]
    constructor
    · intro h
      rcases hfl : find_last_ts t l with _ | r
      · rw [hfl] at h
        intro s hs
        rcases List.mem_cons.mp hs with rfl | hs
        · intro hst
          rw [if_pos (by simpa using hst)] at h
          exact Option.noConfusion h
        · exact (ih.mp hfl) s hs
      · rw [hfl] at h
        exact Option.noConfusion h
    · intro h
      have hfl : find_last_ts t l = none := ih.mpr fun s hs => h s (List.mem_cons_of_mem _ hs)
      rw [hfl]
      rw [if_neg (by simpa using h b (List.mem_cons_self _ _))]

theorem find_last_of_unique_ts (l : List Row) (hl : l.Pairwise fun a b => a.ts ≠ b.ts)
    (r : Row) (hr : r ∈ l) : find_last_ts r.ts l = some r := by
  induction l with
  | nil => cases hr
  | cons a rest ih =>
    obtain ⟨ha, hrest⟩ := List.pairwise_cons.mp hl
    rcases List.mem_cons.mp hr with rfl | hr
    · rw [find_last_ts, List.foldl_cons, find_last_carry]
      rw [find_last_eq_none_iff _ rest |>.mpr fun s hs hst => ha s hs hst.symm]
      rw [if_pos (by simp)]
    · have := ih hrest hr
      rw [find_last_ts, List.foldl_cons, find_last_carry, this]

theorem unique_keep_last_cons (a : Row) (l : List Row) :
    unique_keep_last (a :: l) =
      if (unique_keep_last l).any fun s => s.ts == a.ts then unique_keep_last l
      else a :: unique_keep_last l := rfl

theorem find_last_isSome_iff (t : Timestamp) (l : List Row) :
    (find_last_ts t l).isSome = true ↔ ∃ s ∈ l, s.ts = t := by
  constructor
  · intro h
    rcases hfl : find_last_ts t l with _ | r
    · rw [hfl] at h; simp at h
    · obtain ⟨hm, ht⟩ := find_last_mem t l r hfl
      exact ⟨r, hm, ht⟩
  · intro ⟨s, hs, hts⟩
    rcases hfl : find_last_ts t l with _ | r
    · exact absurd hts ((find_last_eq_none_iff t l).mp hfl s hs)
    · simp

theorem mem_unique_imp_mem (l : List Row) (r : Row) (h : r ∈ unique_keep_last l) :
    r ∈ l := by
  induction l with
  | nil => cases h
  | cons a rest ih =>
    rw [unique_keep_last_cons] at h
    split at h
    · exact List.mem_cons_of_mem _ (ih h)
    · rcases List.mem_cons.mp h with rfl | h
      · exact List.mem_cons_self _ _
      · exact List.mem_cons_of_mem _ (ih h)

theorem any_ts_unique (l : List Row) (t : Timestamp) :
    ((unique_keep_last l).any fun s => s.ts == t) = (l.any fun s => s.ts == t) := by
  induction l generalizing t with
  | nil => rfl
  | cons a rest ih =>
    rw [unique_keep_last_cons, List.any_cons]
    split
    · rename_i hdup
      rw [ih t]
      by_cases hat : (a.ts == t) = true
      · have hteq : a.ts = t := by simpa using hat
        rw [ih a.ts] at hdup
        obtain ⟨s, hs, hseq⟩ := List.any_eq_true.mp hdup
        have hres : rest.any (fun s => s.ts == t) = true :=
          List.any_eq_true.mpr ⟨s, hs, by simp at hseq ⊢; rw [hseq, hteq]⟩
        rw [hres, hat]
        rfl
      · rw [Bool.eq_false_iff.mpr hat]
        simp
    · rw [List.any_cons, ih t]

theorem mem_unique_iff (l : List Row) (r : Row) :
    r ∈ unique_keep_last l ↔ find_last_ts r.ts l = some r := by
  induction l with
  | nil => simp [unique_keep_last, find_last_ts]
  | cons a rest ih =>
    have hcons : find_last_ts r.ts (a :: rest) =
        match find_last_ts r.ts rest with
        | some x => some x
        | none => if a.ts == r.ts then some a else none := by
      rw [find_last_ts, List.foldl_cons, find_last_carry]
    rw [unique_keep_last_cons, hcons]
    rcases hfl : find_last_ts r.ts rest with _ | x <;> rw [hfl] at ih <;> simp only [hfl]
    · by_cases hdup : ((unique_keep_last rest).any fun s => s.ts == a.ts) = true
      · rw [if_pos hdup]
        constructor
        · intro h
          exact absurd (ih.mp h) (by simp)
        · intro h
          by_cases hat : (a.ts == r.ts) = true
          · rw [if_pos hat] at h
            injection h with h2
            exfalso
            rw [any_ts_unique] at hdup
            obtain ⟨s, hs, hts⟩ := List.any_eq_true.mp hdup
            have hsome := (find_last_isSome_iff a.ts rest).mpr ⟨s, hs, by simpa using hts⟩
            rw [h2, hfl] at hsome
            simp at hsome
          · rw [if_neg hat] at h
            exact Option.noConfusion h
      · rw [if_neg hdup]
        constructor
        · intro h
          rcases List.mem_cons.mp h with rfl | h
          · rw [if_pos (by simp)]
          · exact absurd (ih.mp h) (by simp)
        · intro h
          by_cases hat : (a.ts == r.ts) = true
          · rw [if_pos hat] at h
            injection h with h2
            subst h2
            exact List.mem_cons_self _ _
          · rw [if_neg hat] at h
            exact Option.noConfusion h
    · by_cases hdup : ((unique_keep_last rest).any fun s => s.ts == a.ts) = true
      · rw [if_pos hdup]
        exact ih
      · rw [if_neg hdup]
        constructor
        · intro h
          rcases List.mem_cons.mp h with h2 | h2
          · exfalso
            obtain ⟨hxmem, hxts⟩ := find_last_mem _ _ _ hfl
            apply hdup
            rw [any_ts_unique]
            refine List.any_eq_true.mpr ⟨x, hxmem, ?_⟩
            simp only [beq_iff_eq]
            rw [hxts, h2]
          · exact ih.mp h2
        · intro h
          exact List.mem_cons_of_mem _ (ih.mpr h)

/-- After `unique(keep="last")` all kept rows have pairwise distinct
timestamps. -/
theorem pairwise_ne_unique (l : List Row) :
    (unique_keep_last l).Pairwise fun a b => a.ts ≠ b.ts := by
  induction l with
  | nil => exact List.Pairwise.nil
  | cons a rest ih =>
    rw [unique_keep_last_cons]
    split
    · exact ih
    · rename_i hdup
      refine List.pairwise_cons.mpr ⟨?_, ih⟩
      intro b hb hts
      apply hdup
      exact List.any_eq_true.mpr ⟨b, hb, by simpa using hts.symm⟩

theorem Timestamp.le_trans {a b c : Timestamp} (h1 : Timestamp.le a b)
    (h2 : Timestamp.le b c) : Timestamp.le a c := by
  unfold Timestamp.le at *
  omega

theorem Timestamp.le_total (a b : Timestamp) : Timestamp.le a b ∨ Timestamp.le b a := by
  unfold Timestamp.le
  omega

theorem Timestamp.le_of_not_le {a b : Timestamp} (h : ¬ Timestamp.le a b) :
    Timestamp.le b a := by
  unfold Timestamp.le at *
  omega

theorem Timestamp.lt_asymm {a b : Timestamp} (h1 : Timestamp.lt a b)
    (h2 : Timestamp.lt b a) : False := by
  unfold Timestamp.lt at *
  omega

theorem Timestamp.lt_of_le_of_ne {a b : Timestamp} (h1 : Timestamp.le a b) (h2 : a ≠ b) :
    Timestamp.lt a b := by
  obtain ⟨y1, m1, d1, h1h, mi1⟩ := a
  obtain ⟨y2, m2, d2, h2h, mi2⟩ := b
  unfold Timestamp.le at h1
  unfold Timestamp.lt
  rw [Ne, Timestamp.mk.injEq] at h2
  dsimp only at h1 ⊢
  omega

theorem insert_by_ts_perm (r : Row) (l : List Row) :
    (insert_by_ts r l).Perm (r :: l) := by
  induction l with
  | nil => exact List.Perm.refl _
  | cons s rest ih =>
    rw [insert_by_ts]
    split
    · exact List.Perm.refl _
    · exact List.Perm.trans (List.Perm.cons s ih) (List.Perm.swap r s rest)

theorem sort_by_timestamp_perm (l : List Row) : (sort_by_timestamp l).Perm l := by
  induction l with
  | nil => exact List.Perm.refl _
  | cons a rest ih =>
    exact List.Perm.trans (insert_by_ts_perm a (sort_by_timestamp rest)) (List.Perm.cons a ih)

theorem insert_by_ts_pairwise (r : Row) (l : List Row)
    (hl : l.Pairwise fun a b => Timestamp.le a.ts b.ts) :
    (insert_by_ts r l).Pairwise fun a b => Timestamp.le a.ts b.ts := by
  induction l with
  | nil => exact List.pairwise_singleton _ _
  | cons s rest ih =>
    obtain ⟨hs, hrest⟩ := List.pairwise_cons.mp hl
    rw [insert_by_ts]
    split
    · rename_i hle
      refine List.pairwise_cons.mpr ⟨?_, hl⟩
      intro b hb
      rcases List.mem_cons.mp hb with rfl | hb
      · exact hle
      · exact Timestamp.le_trans hle (hs b hb)
    · rename_i hnle
      refine List.pairwise_cons.mpr ⟨?_, ih hrest⟩
      intro b hb
      have hmem := (insert_by_ts_perm r rest).mem_iff.mp hb
      rcases List.mem_cons.mp hmem with rfl | hb2
      · exact Timestamp.le_of_not_le hnle
      · exact hs b hb2

theorem sort_by_timestamp_pairwise (l : List Row) :
    (sort_by_timestamp l).Pairwise fun a b => Timestamp.le a.ts b.ts := by
  induction l with
  | nil => exact List.Pairwise.nil
  | cons a rest ih => exact insert_by_ts_pairwise a (sort_by_timestamp rest) ih

theorem update_combined_fst (ex : Option (List Row)) (data : List Row) :
    (update_combined_file ex data).1 =
      sort_by_timestamp (unique_keep_last (ex.getD [] ++ data)) := by
  cases ex <;> simp [update_combined_file]

theorem result_pairwise_ne (m : List Row) :
    (sort_by_timestamp (unique_keep_last m)).Pairwise fun a b => a.ts ≠ b.ts :=
  ((sort_by_timestamp_perm (unique_keep_last m)).pairwise_iff
    fun h => fun heq => h heq.symm).mpr (pairwise_ne_unique m)

theorem result_mem_iff (m : List Row) (r : Row) :
    r ∈ sort_by_timestamp (unique_keep_last m) ↔ find_last_ts r.ts m = some r :=
  (sort_by_timestamp_perm (unique_keep_last m)).mem_iff.trans (mem_unique_iff m r)

theorem result_pairwise_lt (m : List Row) :
    (sort_by_timestamp (unique_keep_last m)).Pairwise fun a b => Timestamp.lt a.ts b.ts :=
  ((sort_by_timestamp_pairwise (unique_keep_last m)).and (result_pairwise_ne m)).imp
    fun h => Timestamp.lt_of_le_of_ne h.1 h.2

theorem result_nodup (m : List Row) : (sort_by_timestamp (unique_keep_last m)).Nodup :=
  (result_pairwise_ne m).imp fun h => fun heq => h (congrArg Row.ts heq)

/-- Two dedup-and-sort results agree whenever their inputs have the same
last row for every timestamp. -/
theorem result_ext (m1 m2 : List Row)
    (h : ∀ r : Row, find_last_ts r.ts m1 = some r ↔ find_last_ts r.ts m2 = some r) :
    sort_by_timestamp (unique_keep_last m1) = sort_by_timestamp (unique_keep_last m2) := by
  haveI : IsAntisymm Row (fun a b => Timestamp.lt a.ts b.ts) :=
    ⟨fun _ _ h1 h2 => (Timestamp.lt_asymm h1 h2).elim⟩
  have hperm : (sort_by_timestamp (unique_keep_last m1)).Perm
      (sort_by_timestamp (unique_keep_last m2)) :=
    (List.perm_ext_iff_of_nodup (result_nodup m1) (result_nodup m2)).mpr fun r =>
      (result_mem_iff m1 r).trans ((h r).trans (result_mem_iff m2 r).symm)
  exact List.eq_of_perm_of_sorted hperm (result_pairwise_lt m1) (result_pairwise_lt m2)

/-- C4: after `update_combined_file` the stored dataset has at most one
row per timestamp, is sorted by timestamp ascending, on timestamp
conflicts keeps the most recently appended version (the last row of the
new chunk bearing the timestamp), and applying the operation twice with
the same chunk stores exactly what one application stores. -/
theorem update_combined_invariants (ex : Option (List Row)) (data : List Row) :
    ((update_combined_file ex data).1.Pairwise fun a b => a.ts ≠ b.ts) ∧
    ((update_combined_file ex data).1.Pairwise fun a b => Timestamp.le a.ts b.ts) ∧
    (∀ r : Row, find_last_ts r.ts data = some r → r ∈ (update_combined_file ex data).1) ∧
    (update_combined_file (some (update_combined_file ex data).1) data).1 =
      (update_combined_file ex data).1 := by
  rw [update_combined_fst ex data]
  refine ⟨result_pairwise_ne _, sort_by_timestamp_pairwise _, ?_, ?_⟩
  · intro r hr
    rw [result_mem_iff]
    rw [find_last_append, hr]
  · rw [update_combined_fst]
    simp only [Option.getD_some]
    apply result_ext
    intro r
    rcases hc : find_last_ts r.ts data with _ | d
    · rw [find_last_append, hc, find_last_append, hc]
      constructor
      · intro h
        have hmem := (find_last_mem _ _ _ h).1
        have h2 := (result_mem_iff (ex.getD [] ++ data) r).mp hmem
        rw [find_last_append, hc] at h2
        exact h2
      · intro h
        have h2 : find_last_ts r.ts (ex.getD [] ++ data) = some r := by
          rw [find_last_append, hc]
          exact h
        have hmem := (result_mem_iff (ex.getD [] ++ data) r).mpr h2
        exact find_last_of_unique_ts _ (result_pairwise_ne _) r hmem
    · rw [find_last_append, hc, find_last_append, hc]

/-- Witness for C4 at a concrete one-row store and a two-row chunk with a
timestamp conflict. -/
theorem update_combined_invariants_witness :
    ((update_combined_file (some [⟨⟨2024, 1, 1, 0, 0⟩, [("v", 1)]⟩])
        [⟨⟨2024, 1, 1, 0, 0⟩, [("v", 9)]⟩, ⟨⟨2024, 1, 2, 0, 0⟩, [("v", 2)]⟩]).1.Pairwise
      fun a b => a.ts ≠ b.ts) ∧
    ((update_combined_file (some [⟨⟨2024, 1, 1, 0, 0⟩, [("v", 1)]⟩])
        [⟨⟨2024, 1, 1, 0, 0⟩, [("v", 9)]⟩, ⟨⟨2024, 1, 2, 0, 0⟩, [("v", 2)]⟩]).1.Pairwise
      fun a b => Timestamp.le a.ts b.ts) ∧
    (∀ r : Row, find_last_ts r.ts
        [⟨⟨2024, 1, 1, 0, 0⟩, [("v", 9)]⟩, ⟨⟨2024, 1, 2, 0, 0⟩, [("v", 2)]⟩] = some r →
      r ∈ (update_combined_file (some [⟨⟨2024, 1, 1, 0, 0⟩, [("v", 1)]⟩])
        [⟨⟨2024, 1, 1, 0, 0⟩, [("v", 9)]⟩, ⟨⟨2024, 1, 2, 0, 0⟩, [("v", 2)]⟩]).1) ∧
    (update_combined_file
        (some (update_combined_file (some [⟨⟨2024, 1, 1, 0, 0⟩, [("v", 1)]⟩])
          [⟨⟨2024, 1, 1, 0, 0⟩, [("v", 9)]⟩, ⟨⟨2024, 1, 2, 0, 0⟩, [("v", 2)]⟩]).1)
        [⟨⟨2024, 1, 1, 0, 0⟩, [("v", 9)]⟩, ⟨⟨2024, 1, 2, 0, 0⟩, [("v", 2)]⟩]).1 =
      (update_combined_file (some [⟨⟨2024, 1, 1, 0, 0⟩, [("v", 1)]⟩])
        [⟨⟨2024, 1, 1, 0, 0⟩, [("v", 9)]⟩, ⟨⟨2024, 1, 2, 0, 0⟩, [("v", 2)]⟩]).1 :=
  update_combined_invariants (some [⟨⟨2024, 1, 1, 0, 0⟩, [("v", 1)]⟩])
    [⟨⟨2024, 1, 1, 0, 0⟩, [("v", 9)]⟩, ⟨⟨2024, 1, 2, 0, 0⟩, [("v", 2)]⟩]

/-- C3 (code bug exhibit): with 3 rows stored and a 10-row chunk of which
3 timestamps already exist, `update_combined_file` returns -3 (it
computes `rows_before` from the already-concatenated frame, so the
return value is minus the number of deduplicated rows), not the net
new-row count; the true net delta of the stored dataset is 7, as the
spec and the method's own docstring describe. -/
theorem update_combined_return_value_bug :
    (update_combined_file
        (some [⟨⟨2024, 1, 1, 0, 0⟩, []⟩, ⟨⟨2024, 1, 2, 0, 0⟩, []⟩, ⟨⟨2024, 1, 3, 0, 0⟩, []⟩])
        [⟨⟨2024, 1, 1, 0, 0⟩, []⟩, ⟨⟨2024, 1, 2, 0, 0⟩, []⟩, ⟨⟨2024, 1, 3, 0, 0⟩, []⟩,
          ⟨⟨2024, 1, 4, 0, 0⟩, []⟩, ⟨⟨2024, 1, 5, 0, 0⟩, []⟩, ⟨⟨2024, 1, 6, 0, 0⟩, []⟩,
          ⟨⟨2024, 1, 7, 0, 0⟩, []⟩, ⟨⟨2024, 1, 8, 0, 0⟩, []⟩, ⟨⟨2024, 1, 9, 0, 0⟩, []⟩,
          ⟨⟨2024, 1, 10, 0, 0⟩, []⟩]).2 = -3 ∧
    ((update_combined_file
        (some [⟨⟨2024, 1, 1, 0, 0⟩, []⟩, ⟨⟨2024, 1, 2, 0, 0⟩, []⟩, ⟨⟨2024, 1, 3, 0, 0⟩, []⟩])
        [⟨⟨2024, 1, 1, 0, 0⟩, []⟩, ⟨⟨2024, 1, 2, 0, 0⟩, []⟩, ⟨⟨2024, 1, 3, 0, 0⟩, []⟩,
          ⟨⟨2024, 1, 4, 0, 0⟩, []⟩, ⟨⟨2024, 1, 5, 0, 0⟩, []⟩, ⟨⟨2024, 1, 6, 0, 0⟩, []⟩,
          ⟨⟨2024, 1, 7, 0, 0⟩, []⟩, ⟨⟨2024, 1, 8, 0, 0⟩, []⟩, ⟨⟨2024, 1, 9, 0, 0⟩, []⟩,
          ⟨⟨2024, 1, 10, 0, 0⟩, []⟩]).1.length : Int) = 3 + 7 := by decide

/-- Contents of a file in a partition directory: either a fully written
parquet frame or the bytes left behind by an interrupted
`write_parquet`. -/
inductive FileContent where
  | full : List Row → FileContent
  | torn : FileContent
deriving DecidableEq, Repr

/-- A directory as an association of file names (character lists) to
contents. -/
abbrev Dir := List (List Char × FileContent)

/-- Look a file up by name. -/
def lookup_file (d : Dir) (name : List Char) : Option FileContent :=
  match d with
  | [] => none
  | (n, c) :: rest => if n = name then some c else lookup_file rest name

/-- Create or overwrite a file. -/
def set_file (d : Dir) (name : List Char) (c : FileContent) : Dir :=
  match d with
  | [] => [(name, c)]
  | (n, c0) :: rest => if n = name then (name, c) :: rest else (n, c0) :: set_file rest name c

/-- Remove a file. -/
def remove_file (d : Dir) (name : List Char) : Dir :=
  match d with
  | [] => []
  | (n, c0) :: rest => if n = name then rest else (n, c0) :: remove_file rest name

/-- The name `tempfile.NamedTemporaryFile(dir=..., suffix=".parquet.tmp")`
creates inside the target's directory: a fresh stem plus the configured
suffix. -/
def tmp_file_name (stem : List Char) : List Char := stem ++ ".parquet.tmp".toList

/-- The name of the partition data file `_atomic_write` targets. -/
def data_file_name : List Char := "data.parquet".toList

/-- Result of one `_atomic_write` call: the directory afterwards and
whether the call raised. -/
structure AtomicWriteResult where
  dir : Dir
  raised : Bool
deriving DecidableEq, Repr

/-- Mirrors `HiveStorage._atomic_write` on the target's directory: write
the frame to a uniquely named temp file in the same directory, then
rename it onto `data.parquet` (`tmp_path.replace(target_path)`).
`write_ok = false` injects a failure of `DataFrame.write_parquet` (disk
full, permission error): the temp file is left with torn content, the
rename never happens, and the exception propagates to the caller. -/
def atomic_write (d : Dir) (df : List Row) (tmp_stem : List Char) (write_ok : Bool) :
    AtomicWriteResult :=
  if write_ok then
    let d1 := set_file d (tmp_file_name tmp_stem) (.full df)
    let d2 := remove_file d1 (tmp_file_name tmp_stem)
    let d3 := set_file d2 data_file_name (.full df)
    ⟨d3, false⟩
  else
    ⟨set_file d (tmp_file_name tmp_stem) .torn, true⟩

theorem lookup_set_file_ne (d : Dir) (name other : List Char) (c : FileContent)
    (h : name ≠ other) : lookup_file (set_file d name c) other = lookup_file d other := by
  induction d with
  | nil => simp [set_file, lookup_file, h]
  | cons p rest ih =>
    obtain ⟨n, c0⟩ := p
    rw [set_file]
    by_cases hn : n = name
    · rw [if_pos hn, lookup_file, if_neg h, lookup_file, if_neg (hn ▸ h)]
    · rw [if_neg hn, lookup_file, lookup_file]
      split
      · rfl
      · exact ih

/-- A temp file name never collides with the data file name: the suffix
`.parquet.tmp` differs from `data.parquet` at any stem length. -/
theorem tmp_file_name_ne_data (stem : List Char) : tmp_file_name stem ≠ data_file_name := by
  intro h
  have hlen := congrArg List.length h
  rw [tmp_file_name, List.length_append] at hlen
  have hstem : stem.length = 0 := by
    have h1 : (".parquet.tmp".toList).length = 12 := by decide
    have h2 : (data_file_name).length = 12 := by decide
    omega
  rw [List.length_eq_zero.mp hstem] at h
  rw [tmp_file_name, List.nil_append] at h
  exact absurd h (by decide)

/-- C5: if `_atomic_write` hits an error while writing the temp file
(before the rename), the target data file is unchanged — whatever was
previously stored there is still there, never replaced by partial data —
and the error propagates to the caller. -/
theorem atomic_write_error_preserves_target (d : Dir) (df : List Row) (tmp_stem : List Char) :
    (atomic_write d df tmp_stem false).raised = true ∧
      lookup_file (atomic_write d df tmp_stem false).dir data_file_name =
        lookup_file d data_file_name := by
  refine ⟨rfl, ?_⟩
  exact lookup_set_file_ne d (tmp_file_name tmp_stem) data_file_name .torn
    (tmp_file_name_ne_data tmp_stem)

/-- The on-disk folding of a storage key: `key.replace("/", "_")`
(character-wise, since both patterns are single characters). -/
def encode_key (k : List Char) : List Char :=
  k.map fun c => if c = '/' then '_' else c

/-- The reversal `list_keys` applies to a directory name:
`path.name.replace("_", "/")`. -/
def decode_key (n : List Char) : List Char :=
  n.map fun c => if c = '_' then '/' else c

/-- Mirrors `HiveStorage.list_keys` on the list of top-level directory
names under the base path: skip names starting with `.` (the metadata
and chunk areas) and decode the rest. (The code also sorts the result;
sorting does not affect membership, which is all the claims use.) -/
def list_keys (dirs : List (List Char)) : List (List Char) :=
  (dirs.filter fun d => decide (d.head? ≠ some '.')).map decode_key

/-- C6 (amended): after writing a key containing `/` that does not start
with `.` (whose directory is `encode_key k`; dot-leading directories
are skipped by `list_keys` and so are excluded), `list_keys` reports
`decode_key (encode_key k)`, and re-encoding that reported key resolves
to the same directory as the original key, for `read` and `delete`
alike. -/
theorem key_encoding_round_trip (dirs : List (List Char)) (k : List Char)
    (hslash : '/' ∈ k) (hdir : encode_key k ∈ dirs) (hdot : k.head? ≠ some '.') :
    decode_key (encode_key k) ∈ list_keys dirs ∧
      encode_key (decode_key (encode_key k)) = encode_key k := by
  constructor
  · rw [list_keys]
    refine List.mem_map_of_mem decode_key (List.mem_filter.mpr ⟨hdir, ?_⟩)
    simp only [decide_eq_true_eq]
    rw [encode_key]
    cases k with
    | nil => simp
    | cons c rest =>
      simp only [List.map_cons, List.head?_cons, ne_eq, Option.some.injEq] at hdot ⊢
      split
      · simp
      · exact hdot
  · rw [encode_key, decode_key, encode_key, List.map_map, List.map_map]
    refine List.map_congr_left fun c _ => ?_
    by_cases h1 : c = '/'
    · simp [h1]
    · by_cases h2 : c = '_' <;> simp [h1, h2]

/-- Witness for C6 at the key `yahoo/AAPL`. -/
theorem key_encoding_round_trip_witness :
    ('/' ∈ "yahoo/AAPL".toList ∧ encode_key "yahoo/AAPL".toList ∈ ["yahoo_AAPL".toList] ∧
      "yahoo/AAPL".toList.head? ≠ some '.') ∧
    (decode_key (encode_key "yahoo/AAPL".toList) ∈ list_keys ["yahoo_AAPL".toList] ∧
      encode_key (decode_key (encode_key "yahoo/AAPL".toList)) =
        encode_key "yahoo/AAPL".toList) :=
  ⟨by decide, key_encoding_round_trip ["yahoo_AAPL".toList] "yahoo/AAPL".toList
    (by decide) (by decide) (by decide)⟩

/-- Counterexample to C6 as stated: the key-to-directory mapping is not a
bijection — the distinct keys `a/b` and `a_b` fold to the same
directory name — and the round-trip guarantee also fails for keys
starting with `.`: the key `.a/b` contains `/` and its directory
`.a_b` exists, yet `list_keys` skips every dot-leading directory name
and returns no key for it at all. -/
theorem key_encoding_not_injective :
    (encode_key "a/b".toList = encode_key "a_b".toList ∧
      "a/b".toList ≠ "a_b".toList) ∧
    ('/' ∈ ".a/b".toList ∧ encode_key ".a/b".toList ∈ [encode_key ".a/b".toList] ∧
      list_keys [encode_key ".a/b".toList] = []) := by decide

/-- The partitioned datasets under the base path: each existing key
directory (encoded name) with its partition layout. -/
abbrev Store := List (List Char × List Partition)

/-- Look a key directory up under the base path. -/
def store_lookup (st : Store) (d : List Char) : Option (List Partition) :=
  match st with
  | [] => none
  | (n, l) :: rest => if n = d then some l else store_lookup rest d

/-- Mirrors `HiveStorage.exists`: the key directory's existence check. -/
def exists_key (st : Store) (key : List Char) : Bool :=
  (store_lookup st (encode_key key)).isSome

/-- The error `HiveStorage.read` raises for an unknown key
(`KeyError(f"Key '{key}' not found in storage")`). -/
inductive ReadError where
  | keyNotFound
deriving DecidableEq, Repr

/-- Mirrors `HiveStorage.read` (materialized): raise the key-not-found
error when the key directory does not exist, otherwise prune, filter and
concatenate the partitions; with zero surviving partitions the result is
the explicitly empty frame `pl.LazyFrame()`. -/
def hive_read (st : Store) (key : List Char) (sd ed : Option Timestamp) :
    Except ReadError (List Row) :=
  match store_lookup st (encode_key key) with
  | none => .error .keyNotFound
  | some layout => .ok (read_partitions layout sd ed)

/-- The derived incremental-update key `f"{provider}/{symbol}"`. -/
def incremental_key (symbol provider : List Char) : List Char :=
  provider ++ '/' :: symbol

/-- Mirrors `HiveStorage.read_data`: return an empty frame when the key
does not exist (never raising key-not-found), else
`read(key, start, end).collect()`. The error branch of the inner read is
unreachable because of the `exists` guard. -/
def read_data (st : Store) (symbol provider : List Char) (sd ed : Option Timestamp) :
    List Row :=
  let key := incremental_key symbol provider
  if exists_key st key then
    match hive_read st key sd ed with
    | .ok rows => rows
    | .error _ => []
  else []

/-- C7: `read` on an unknown key raises key-not-found (never an empty
result); `read` on a present key whose partitions are all pruned returns
an explicitly empty result without error; `read_data` on an unknown key
returns an empty table instead of raising. -/
theorem read_error_handling (st : Store) (sd ed : Option Timestamp) :
    (∀ key : List Char, store_lookup st (encode_key key) = none →
      hive_read st key sd ed = .error .keyNotFound) ∧
    (∀ (key : List Char) (layout : List Partition),
      store_lookup st (encode_key key) = some layout →
      (layout.filter fun p => partition_in_range p.1 sd ed) = [] →
      hive_read st key sd ed = .ok []) ∧
    (∀ symbol provider : List Char,
      store_lookup st (encode_key (incremental_key symbol provider)) = none →
      read_data st symbol provider sd ed = []) := by
  refine ⟨?_, ?_, ?_⟩
  · intro key h
    rw [hive_read, h]
  · intro key layout h hpruned
    rw [hive_read, h]
    show Except.ok (read_partitions layout sd ed) = Except.ok []
    unfold read_partitions
    rw [hpruned]
    rfl
  · intro symbol provider h
    rw [read_data]
    simp only [exists_key, h, Option.isSome_none, Bool.false_eq_true, if_false]

/-- Witness for C7 at a one-key store: a missing key raises, a fully
pruned range on the present key returns the empty frame, and `read_data`
for a missing incremental key returns the empty frame. -/
theorem read_error_handling_witness :
    hive_read [("yahoo_AAPL".toList,
        [(⟨some 2024, some 1, none, none⟩, [⟨⟨2024, 1, 1, 0, 0⟩, []⟩])])]
      "missing/key".toList (some ⟨2030, 1, 1, 0, 0⟩) (some ⟨2030, 2, 1, 0, 0⟩) =
        .error .keyNotFound ∧
    hive_read [("yahoo_AAPL".toList,
        [(⟨some 2024, some 1, none, none⟩, [⟨⟨2024, 1, 1, 0, 0⟩, []⟩])])]
      "yahoo/AAPL".toList (some ⟨2030, 1, 1, 0, 0⟩) (some ⟨2030, 2, 1, 0, 0⟩) = .ok [] ∧
    read_data [("yahoo_AAPL".toList,
        [(⟨some 2024, some 1, none, none⟩, [⟨⟨2024, 1, 1, 0, 0⟩, []⟩])])]
      "TSLA".toList "vendor".toList (some ⟨2030, 1, 1, 0, 0⟩) (some ⟨2030, 2, 1, 0, 0⟩) =
        [] :=
  ⟨(read_error_handling _ _ _).1 "missing/key".toList (by decide),
   (read_error_handling _ _ _).2.1 "yahoo/AAPL".toList
     [(⟨some 2024, some 1, none, none⟩, [⟨⟨2024, 1, 1, 0, 0⟩, []⟩])] (by decide) (by decide),
   (read_error_handling _ _ _).2.2 "TSLA".toList "vendor".toList (by decide)⟩

/-- Polars `df["timestamp"].max()` over the materialized rows. -/
def max_ts (rows : List Row) : Option Timestamp :=
  rows.foldl
    (fun acc r =>
      match acc with
      | none => some r.ts
      | some m => some (if Timestamp.le m r.ts then r.ts else m))
    none

/-- Mirrors `HiveStorage.get_latest_timestamp`: `None` when the derived
key does not exist; otherwise read, select `timestamp`, collect, and
take the max, returning `None` for an empty frame. `read_ok = false`
injects any exception raised inside the `try` block (an I/O or decode
failure while reading or materializing): the blanket
`except Exception: return None` converts it to `None`. -/
def get_latest_timestamp (st : Store) (symbol provider : List Char) (read_ok : Bool) :
    Option Timestamp :=
  let key := incremental_key symbol provider
  if exists_key st key then
    if read_ok then
      match hive_read st key none none with
      | .ok rows => if rows.isEmpty then none else max_ts rows
      | .error _ => none
    else none
  else none

/-- C10: `get_latest_timestamp` never raises — a failure while reading or
materializing the key's data is swallowed and turned into `None`, which
is also exactly what an existing key with no data yields, so the caller
cannot tell "no data yet" from "read failed". -/
theorem get_latest_timestamp_swallows_errors (st st2 : Store) (symbol provider : List Char) :
    get_latest_timestamp st symbol provider false = none ∧
    (store_lookup st2 (encode_key (incremental_key symbol provider)) = some [] →
      get_latest_timestamp st2 symbol provider true =
        get_latest_timestamp st symbol provider false) := by
  have h1 : get_latest_timestamp st symbol provider false = none := by
    rw [get_latest_timestamp]
    split <;> rfl
  refine ⟨h1, ?_⟩
  intro h
  rw [h1, get_latest_timestamp]
  simp only [exists_key, h, Option.isSome_some, if_true]
  rw [hive_read, h]
  rfl

/-- Witness for C10: a store whose key directory exists but holds no
partitions is indistinguishable from a store where reading the same key
fails. -/
theorem get_latest_timestamp_swallows_errors_witness :
    get_latest_timestamp [("vendor_TSLA".toList,
        [(⟨some 2024, some 1, none, none⟩, [⟨⟨2024, 1, 1, 0, 0⟩, []⟩])])]
      "TSLA".toList "vendor".toList false = none ∧
    (store_lookup [("vendor_TSLA".toList, ([] : List Partition))]
        (encode_key (incremental_key "TSLA".toList "vendor".toList)) =
          some [] →
      get_latest_timestamp [("vendor_TSLA".toList, ([] : List Partition))]
          "TSLA".toList "vendor".toList true =
        get_latest_timestamp [("vendor_TSLA".toList,
          [(⟨some 2024, some 1, none, none⟩, [⟨⟨2024, 1, 1, 0, 0⟩, []⟩])])]
          "TSLA".toList "vendor".toList false) :=
  get_latest_timestamp_swallows_errors _ _ "TSLA".toList "vendor".toList

/-- One entry of a key's `update_history` (ISO timestamp strings are
modelled as the instants they encode). -/
structure HistEntry where
  timestamp : Timestamp
  records_added : Int
  chunk_file : List Char
deriving DecidableEq, Repr

/-- A top-level value in a key's metadata JSON document. -/
inductive MetaVal where
  | str : List Char → MetaVal
  | time : Timestamp → MetaVal
  | num : Int → MetaVal
  | strs : List (List Char) → MetaVal
  | hist : List HistEntry → MetaVal
  | obj : List (String × List Char) → MetaVal
deriving DecidableEq, Repr

/-- A metadata JSON document: ordered top-level fields. -/
abbrev MetaDoc := List (String × MetaVal)

/-- The `.metadata` directory: one JSON document per encoded key. -/
abbrev MetaStore := List (List Char × MetaDoc)

/-- Python dict read `metadata.get(name)` / `metadata[name]`. -/
def get_field (d : MetaDoc) (n : String) : Option MetaVal :=
  match d with
  | [] => none
  | (m, v) :: rest => if m = n then some v else get_field rest n

/-- Python dict assignment `metadata[name] = v`: overwrite in place or
append. -/
def set_field (d : MetaDoc) (n : String) (v : MetaVal) : MetaDoc :=
  match d with
  | [] => [(n, v)]
  | (m, w) :: rest => if m = n then (n, v) :: rest else (m, w) :: set_field rest n v

/-- Read the metadata file for an encoded key
(`HiveStorage.get_metadata` after the existence check). -/
def meta_get (st : MetaStore) (k : List Char) : Option MetaDoc :=
  match st with
  | [] => none
  | (n, d) :: rest => if n = k then some d else meta_get rest k

/-- Mirrors `HiveStorage._update_metadata` / `_write_metadata_file`: the
key's metadata file is rewritten with exactly the given document — the
previous document is replaced wholesale, not merged. -/
def metadata_replace (st : MetaStore) (k : List Char) (doc : MetaDoc) : MetaStore :=
  match st with
  | [] => [(k, doc)]
  | (n, d) :: rest => if n = k then (k, doc) :: rest else (n, d) :: metadata_replace rest k doc

/-- The metadata document `HiveStorage.write` builds and hands to
`_update_metadata` — note it carries no `update_history` field. -/
def write_metadata_doc (now : Timestamp) (partitions : List (List Char)) (row_count : Int)
    (schema : List (List Char)) (custom : List (String × List Char)) : MetaDoc :=
  [("last_updated", .time now), ("partitions", .strs partitions),
   ("row_count", .num row_count), ("schema", .strs schema), ("custom", .obj custom)]

/-- Mirrors `HiveStorage.update_metadata` (the incremental-update path):
load or create the document, refresh `last_update`, append one history
entry, cap the history at the last 100 entries
(`metadata["update_history"][-100:]`), and write the document back. -/
def update_metadata (st : MetaStore) (symbol provider : List Char) (last_update : Timestamp)
    (records_added : Int) (chunk_file : List Char) : MetaStore :=
  let key := incremental_key symbol provider
  let metadata :=
    match meta_get st (encode_key key) with
    | some m => m
    | none =>
        [("symbol", .str symbol), ("provider", .str provider),
         ("first_update", .time last_update), ("update_history", .hist [])]
  let metadata := set_field metadata "last_update" (.time last_update)
  let metadata :=
    if (get_field metadata "update_history").isSome then metadata
    else set_field metadata "update_history" (.hist [])
  let history :=
    match get_field metadata "update_history" with
    | some (.hist h) => h
    | _ => []
  let history := history ++ [⟨last_update, records_added, chunk_file⟩]
  let history := if history.length > 100 then history.drop (history.length - 100) else history
  let metadata := set_field metadata "update_history" (.hist history)
  metadata_replace st (encode_key key) metadata

/-- The entries of a key's `update_history` field (empty when the
document or the field is absent). -/
def doc_history (d : Option MetaDoc) : List HistEntry :=
  match d with
  | some m =>
      match get_field m "update_history" with
      | some (.hist h) => h
      | _ => []
  | none => []

theorem get_field_set_same (d : MetaDoc) (n : String) (v : MetaVal) :
    get_field (set_field d n v) n = some v := by
  induction d with
  | nil => simp [set_field, get_field]
  | cons p rest ih =>
    obtain ⟨m, w⟩ := p
    rw [set_field]
    by_cases hm : m = n
    · rw [if_pos hm, get_field, if_pos rfl]
    · rw [if_neg hm, get_field, if_neg hm]
      exact ih

theorem get_field_set_ne (d : MetaDoc) (n n2 : String) (v : MetaVal) (h : n ≠ n2) :
    get_field (set_field d n v) n2 = get_field d n2 := by
  induction d with
  | nil => simp [set_field, get_field, h]
  | cons p rest ih =>
    obtain ⟨m, w⟩ := p
    rw [set_field]
    by_cases hm : m = n
    · rw [if_pos hm, get_field, if_neg h, get_field, if_neg (hm ▸ h)]
    · rw [if_neg hm, get_field, get_field]
      split
      · rfl
      · exact ih

theorem meta_get_replace_same (st : MetaStore) (k : List Char) (doc : MetaDoc) :
    meta_get (metadata_replace st k doc) k = some doc := by
  induction st with
  | nil => simp [metadata_replace, meta_get]
  | cons p rest ih =>
    obtain ⟨n, d⟩ := p
    rw [metadata_replace]
    by_cases hn : n = k
    · rw [if_pos hn, meta_get, if_pos rfl]
    · rw [if_neg hn, meta_get, if_neg hn]
      exact ih

theorem doc_history_some (d : MetaDoc) :
    doc_history (some d) =
      match get_field d "update_history" with
      | some (.hist h) => h
      | _ => [] := rfl

/-- One `update_metadata` call appends its entry to the key's history and
keeps only the last 100 entries. -/
theorem update_metadata_history (st : MetaStore) (symbol provider : List Char)
    (t : Timestamp) (k : Int) (f : List Char) :
    doc_history (meta_get (update_metadata st symbol provider t k f)
        (encode_key (incremental_key symbol provider))) =
      (let h := doc_history (meta_get st (encode_key (incremental_key symbol provider))) ++
        [⟨t, k, f⟩]
       if h.length > 100 then h.drop (h.length - 100) else h) := by
  unfold update_metadata
  rw [meta_get_replace_same, doc_history_some, get_field_set_same]
  rcases hm : meta_get st (encode_key (incremental_key symbol provider)) with _ | m
  · simp only [hm]
    rw [get_field_set_ne _ _ _ _ (by decide)]
    rfl
  · simp only [hm]
    rw [get_field_set_ne _ _ _ _ (by decide)]
    rcases hf : get_field m "update_history" with _ | v
    · simp only [hf, Option.isSome_none, Bool.false_eq_true, if_false]
      rw [get_field_set_same]
      rw [doc_history_some, hf]
    · simp only [hf, Option.isSome_some, if_true]
      rw [get_field_set_ne _ _ _ _ (by decide), hf]
      rw [doc_history_some, hf]

/-- The metadata effect of `HiveStorage.write` with metadata tracking on:
`_update_metadata` replaces the key's JSON document with the freshly
built one. -/
def write_metadata_update (st : MetaStore) (key : List Char) (now : Timestamp)
    (partitions : List (List Char)) (row_count : Int) (schema : List (List Char))
    (custom : List (String × List Char)) : MetaStore :=
  metadata_replace st (encode_key key) (write_metadata_doc now partitions row_count schema custom)

/-- A metadata-affecting call on one key: a full `write` or an
incremental `update_metadata`. -/
inductive MetaCall where
  | write (now : Timestamp) (partitions : List (List Char)) (row_count : Int)
      (schema : List (List Char)) (custom : List (String × List Char)) : MetaCall
  | incr (last_update : Timestamp) (records_added : Int) (chunk_file : List Char) : MetaCall
deriving DecidableEq, Repr

/-- Apply one metadata-affecting call for the key `provider/symbol`. -/
def apply_meta_call (symbol provider : List Char) (st : MetaStore) : MetaCall → MetaStore
  | .write now parts n schema custom =>
      write_metadata_update st (incremental_key symbol provider) now parts n schema custom
  | .incr t k f => update_metadata st symbol provider t k f

/-- Apply a sequence of metadata-affecting calls in order. -/
def apply_meta_calls (symbol provider : List Char) (st : MetaStore)
    (calls : List MetaCall) : MetaStore :=
  calls.foldl (apply_meta_call symbol provider) st

/-- Apply a sequence of incremental `update_metadata` calls
(timestamp, records added, chunk file) in order. -/
def apply_updates (symbol provider : List Char) (st : MetaStore)
    (calls : List (Timestamp × Int × List Char)) : MetaStore :=
  calls.foldl (fun st2 c => update_metadata st2 symbol provider c.1 c.2.1 c.2.2) st

theorem apply_updates_nil (symbol provider : List Char) (st : MetaStore) :
    apply_updates symbol provider st [] = st := rfl

theorem apply_updates_cons (symbol provider : List Char) (st : MetaStore)
    (c : Timestamp × Int × List Char) (rest : List (Timestamp × Int × List Char)) :
    apply_updates symbol provider st (c :: rest) =
      apply_updates symbol provider (update_metadata st symbol provider c.1 c.2.1 c.2.2)
        rest := rfl

/-- One `update_metadata` call on a key whose history is within the
bound: the history stays within the bound and its last entry is the one
just appended. -/
theorem update_metadata_history_le (st : MetaStore) (symbol provider : List Char)
    (t : Timestamp) (k : Int) (f : List Char)
    (hlen : (doc_history (meta_get st (encode_key (incremental_key symbol provider)))).length
      ≤ 100) :
    (doc_history (meta_get (update_metadata st symbol provider t k f)
        (encode_key (incremental_key symbol provider)))).length ≤ 100 ∧
      (doc_history (meta_get (update_metadata st symbol provider t k f)
        (encode_key (incremental_key symbol provider)))).getLast? =
        some ⟨t, k, f⟩ := by
  rw [update_metadata_history]
  dsimp only
  split
  · rename_i hgt
    constructor
    · rw [List.length_drop]
      omega
    · have hk : (doc_history (meta_get st (encode_key (incremental_key symbol provider))) ++
          [(⟨t, k, f⟩ : HistEntry)]).length - 100 ≤
            (doc_history (meta_get st (encode_key (incremental_key symbol provider)))).length := by
        rw [List.length_append]
        simp only [List.length_cons, List.length_nil]
        omega
      rw [List.drop_append_of_le_length hk, List.getLast?_concat]
  · rename_i hle
    constructor
    · rw [List.length_append] at hle ⊢
      simp only [List.length_cons, List.length_nil] at hle ⊢
      omega
    · exact List.getLast?_concat _

/-- C8 (amended): after any nonempty sequence of incremental
`update_metadata` calls on a key whose history starts within the bound
(in particular from a fresh key), the key's `update_history` has at most
100 entries and the most recent entry's timestamp is that of the latest
applied update. A plain `write` instead replaces the whole metadata
document and drops `update_history` entirely. -/
theorem metadata_history_bounded (symbol provider : List Char) (store : MetaStore)
    (calls : List (Timestamp × Int × List Char))
    (hlen : (doc_history (meta_get store (encode_key (incremental_key symbol provider)))).length
      ≤ 100)
    (hne : calls ≠ []) :
    (doc_history (meta_get (apply_updates symbol provider store calls)
        (encode_key (incremental_key symbol provider)))).length ≤ 100 ∧
      ((doc_history (meta_get (apply_updates symbol provider store calls)
        (encode_key (incremental_key symbol provider)))).getLast?.map HistEntry.timestamp) =
        calls.getLast?.map fun c => c.1 := by
  induction calls generalizing store with
  | nil => exact absurd rfl hne
  | cons c rest ih =>
    obtain ⟨hstep_len, hstep_last⟩ :=
      update_metadata_history_le store symbol provider c.1 c.2.1 c.2.2 hlen
    rcases rest with _ | ⟨c2, rest2⟩
    · rw [apply_updates_cons, apply_updates_nil]
      refine ⟨hstep_len, ?_⟩
      rw [hstep_last]
      rfl
    · rw [apply_updates_cons]
      have hres := ih (update_metadata store symbol provider c.1 c.2.1 c.2.2) hstep_len
        (by simp)
      rw [List.getLast?_cons_cons]
      exact hres

/-- Witness for C8 (amended) at two concrete sequential updates from an
empty metadata store. -/
theorem metadata_history_bounded_witness :
    ((doc_history (meta_get ([] : MetaStore)
        (encode_key (incremental_key "AAPL".toList "yahoo".toList)))).length ≤ 100 ∧
      [(⟨⟨2024, 1, 1, 0, 0⟩, 5, "c1".toList⟩ : Timestamp × Int × List Char),
        ⟨⟨2024, 1, 2, 0, 0⟩, 3, "c2".toList⟩] ≠ []) ∧
    ((doc_history (meta_get (apply_updates "AAPL".toList "yahoo".toList []
        [⟨⟨2024, 1, 1, 0, 0⟩, 5, "c1".toList⟩, ⟨⟨2024, 1, 2, 0, 0⟩, 3, "c2".toList⟩])
        (encode_key (incremental_key "AAPL".toList "yahoo".toList)))).length ≤ 100 ∧
      ((doc_history (meta_get (apply_updates "AAPL".toList "yahoo".toList []
        [⟨⟨2024, 1, 1, 0, 0⟩, 5, "c1".toList⟩, ⟨⟨2024, 1, 2, 0, 0⟩, 3, "c2".toList⟩])
        (encode_key (incremental_key "AAPL".toList "yahoo".toList)))).getLast?.map
          HistEntry.timestamp) =
        ([⟨⟨2024, 1, 1, 0, 0⟩, 5, "c1".toList⟩,
          (⟨⟨2024, 1, 2, 0, 0⟩, 3, "c2".toList⟩ : Timestamp × Int × List Char)].getLast?.map
            fun c => c.1)) :=
  ⟨⟨by decide, by decide⟩,
    metadata_history_bounded "AAPL".toList "yahoo".toList []
      [⟨⟨2024, 1, 1, 0, 0⟩, 5, "c1".toList⟩, ⟨⟨2024, 1, 2, 0, 0⟩, 3, "c2".toList⟩]
      (by decide) (by decide)⟩

/-- Counterexample to C8 as stated: the two-call sequence
`update_metadata` then `write` leaves the key with no `update_history`
at all, so the most recent entry does not carry the latest update's
timestamp (the claim's conjunction fails). -/
theorem metadata_history_claim_counterexample :
    ¬ (((doc_history (meta_get
          (apply_meta_calls "AAPL".toList "yahoo".toList []
            [MetaCall.incr ⟨2024, 1, 1, 0, 0⟩ 5 "c1".toList,
              MetaCall.write ⟨2024, 1, 2, 0, 0⟩ [] 5 [] []])
          (encode_key (incremental_key "AAPL".toList "yahoo".toList)))).length ≤ 100) ∧
        ((doc_history (meta_get
          (apply_meta_calls "AAPL".toList "yahoo".toList []
            [MetaCall.incr ⟨2024, 1, 1, 0, 0⟩ 5 "c1".toList,
              MetaCall.write ⟨2024, 1, 2, 0, 0⟩ [] 5 [] []])
          (encode_key (incremental_key "AAPL".toList "yahoo".toList)))).getLast?.map
            HistEntry.timestamp) = some ⟨2024, 1, 2, 0, 0⟩) := by decide

/-- C9 (amended): `_update_metadata` replaces the key's metadata document
with exactly the given payload (fields absent from the payload are
dropped rather than merged — in particular a plain `write` discards an
existing `update_history`), while the incremental `update_metadata`
itself reloads the existing document, appends one history entry and
preserves the prior history. -/
theorem metadata_replace_and_append (store : MetaStore) (key2 : List Char) (doc : MetaDoc)
    (symbol provider : List Char) (t : Timestamp) (k : Int) (f : List Char)
    (hlen : (doc_history (meta_get store (encode_key (incremental_key symbol provider)))).length
      < 100) :
    meta_get (metadata_replace store key2 doc) key2 = some doc ∧
    doc_history (meta_get (update_metadata store symbol provider t k f)
        (encode_key (incremental_key symbol provider))) =
      doc_history (meta_get store (encode_key (incremental_key symbol provider))) ++
        [⟨t, k, f⟩] := by
  refine ⟨meta_get_replace_same store key2 doc, ?_⟩
  rw [update_metadata_history]
  dsimp only
  rw [if_neg]
  rw [List.length_append]
  simp only [List.length_cons, List.length_nil]
  omega

/-- Witness for C9 (amended) at a one-key store holding one history
entry. -/
theorem metadata_replace_and_append_witness :
    ((doc_history (meta_get
        [("yahoo_AAPL".toList,
          [("update_history", MetaVal.hist [⟨⟨2024, 1, 1, 0, 0⟩, 5, "c1".toList⟩])])]
        (encode_key (incremental_key "AAPL".toList "yahoo".toList)))).length < 100) ∧
    (meta_get (metadata_replace
        [("yahoo_AAPL".toList,
          [("update_history", MetaVal.hist [⟨⟨2024, 1, 1, 0, 0⟩, 5, "c1".toList⟩])])]
        "other".toList [("row_count", MetaVal.num 7)]) "other".toList =
      some [("row_count", MetaVal.num 7)] ∧
    doc_history (meta_get (update_metadata
        [("yahoo_AAPL".toList,
          [("update_history", MetaVal.hist [⟨⟨2024, 1, 1, 0, 0⟩, 5, "c1".toList⟩])])]
        "AAPL".toList "yahoo".toList ⟨2024, 1, 2, 0, 0⟩ 3 "c2".toList)
        (encode_key (incremental_key "AAPL".toList "yahoo".toList))) =
      doc_history (meta_get
        [("yahoo_AAPL".toList,
          [("update_history", MetaVal.hist [⟨⟨2024, 1, 1, 0, 0⟩, 5, "c1".toList⟩])])]
        (encode_key (incremental_key "AAPL".toList "yahoo".toList))) ++
        [⟨⟨2024, 1, 2, 0, 0⟩, 3, "c2".toList⟩]) :=
  ⟨by decide,
    metadata_replace_and_append
      [("yahoo_AAPL".toList,
        [("update_history", MetaVal.hist [⟨⟨2024, 1, 1, 0, 0⟩, 5, "c1".toList⟩])])]
      "other".toList [("row_count", MetaVal.num 7)] "AAPL".toList "yahoo".toList
      ⟨2024, 1, 2, 0, 0⟩ 3 "c2".toList (by decide)⟩

/-- Counterexample to C9 as stated: a metadata update performed by
`write` does not preserve an existing `update_history` field — the
payload replaces the whole document and the field vanishes. -/
theorem write_metadata_drops_history :
    doc_history (meta_get
        [("yahoo_AAPL".toList,
          [("update_history", MetaVal.hist [⟨⟨2024, 1, 1, 0, 0⟩, 5, "c1".toList⟩])])]
        (encode_key "yahoo/AAPL".toList)) =
      [⟨⟨2024, 1, 1, 0, 0⟩, 5, "c1".toList⟩] ∧
    ((meta_get (write_metadata_update
        [("yahoo_AAPL".toList,
          [("update_history", MetaVal.hist [⟨⟨2024, 1, 1, 0, 0⟩, 5, "c1".toList⟩])])]
        "yahoo/AAPL".toList ⟨2024, 1, 2, 0, 0⟩ ["year=2024".toList] 5 [] [])
        (encode_key "yahoo/AAPL".toList)).map
      fun d => (get_field d "update_history").isSome) = some false := by decide

end Ml4tData

